import Mathlib

/-!
Verification of the utility module `pypicloud/util.py`.

Strings are embedded as `List Char` (`Str`).  External collaborators of the
module (the `distlib` splitting heuristic, the scraping super-class, the
logger) are taken as parameters of the embedded operations; everything the
module itself computes is translated directly from the source.
-/

set_option maxRecDepth 4096

/-- Strings of the embedded program: lists of characters. -/
abbrev Str := List Char

/-- The character class `[-_.]` of the regular expression in
`normalize_name` (`re.sub(r"[-_.]+", "-", name)`): the separator characters
hyphen (code 45), underscore (code 95) and dot (code 46). -/
def isSep (c : Char) : Bool :=
  c.toNat = 45 || c.toNat = 95 || c.toNat = 46

/-- One pass of `re.sub(r"[-_.]+", "-", name)`: replace every maximal run of
separator characters by a single hyphen.  The boolean argument records
whether the previous character belonged to a separator run. -/
def squashAux : Bool → List Char → List Char
  | _, [] => []
  | prevSep, c :: rest =>
    if isSep c then
      if prevSep then squashAux true rest
      else '-' :: squashAux true rest
    else c :: squashAux false rest

/-- `re.sub(r"[-_.]+", "-", name)` from `normalize_name`. -/
def squashSeps (l : List Char) : List Char :=
  squashAux false l

/-- `normalize_name` from `util.py`: substitute separator runs by a hyphen,
then lower-case the result (`Char.toLower` models `str.lower` on the basic
latin letters). -/
def normalize_name (name : Str) : Str :=
  (squashSeps name).map Char.toLower

/-- The `ValueError` raised by `parse_filename`; its message carries the
offending filename. -/
structure ParseErr where
  filename : Str
deriving DecidableEq

/-- The type of the external splitting heuristic `distlib.util.split_filename`:
from the trimmed filename and the optional hint name it produces the
name and version components, or fails. -/
abbrev SplitFn := Str → Option Str → Option (Str × Str)

/-- `ALL_EXTENSIONS = Locator.source_extensions + Locator.binary_extensions`:
the fixed, ordered tuple of recognized archive extensions taken from the
external locator library. -/
def ALL_EXTENSIONS : List Str :=
  [".tar.gz".toList, ".tar.bz2".toList, ".tar".toList, ".zip".toList,
   ".tgz".toList, ".tbz".toList, ".egg".toList, ".exe".toList, ".whl".toList]

/-- `filename[:-len(ext)]`: the filename with the extension removed. -/
def trimExt (filename ext : Str) : Str :=
  filename.take (filename.length - ext.length)

/-- The extension loop of `parse_filename`: scan the extensions in order; at
the first one that is a suffix of the filename, return the result of the
split of the trimmed filename (a failing split `break`s out of the loop,
leaving `version = None`). -/
def findParsed (split : SplitFn) (filename : Str) (name : Option Str) :
    List Str → Option (Str × Str)
  | [] => none
  | ext :: rest =>
    if ext.isSuffixOf filename then
      split (trimExt filename ext) name
    else findParsed split filename name rest

/-- `parse_filename(filename, name=None)` from `util.py`, parameterized by the
external splitting heuristic `split`.  If the loop left `version = None` a
`ValueError` carrying the filename is raised; otherwise the hint name (when
given) or else the parsed name is normalized and returned with the version. -/
def parse_filename (split : SplitFn) (filename : Str) (name : Option Str) :
    Except ParseErr (Str × Str) :=
  match findParsed split filename name ALL_EXTENSIONS with
  | none => Except.error ⟨filename⟩
  | some (parsed_name, version) =>
      Except.ok (normalize_name (name.getD parsed_name), version)

example : normalize_name ("Foo_Bar.Baz".toList) = "foo-bar-baz".toList := by decide

/-- `getdefaults` loop body: walk the acceptable keys in order; at the first
key present in the settings dict return its value, together with the
deprecation warning `(key, canonical)` that `LOG.warn` emits when the found
key is not the canonical (first) one; return the default when no key is
present.  Settings dicts are embedded as partial maps `String → Option V`. -/
def getdefaultsLoop {V : Type} (settings : String → Option V) (canonical : String)
    (dflt : V) : List String → V × Option (String × String)
  | [] => (dflt, none)
  | key :: rest =>
    match settings key with
    | some v => (v, if key = canonical then none else some (key, canonical))
    | none => getdefaultsLoop settings canonical dflt rest

/-- `getdefaults(settings, *args)` from `util.py`: `args` is the ordered key
list followed by the default.  The `assert len(args) >= 3` (at least two keys)
is modelled by returning `none` (an `AssertionError`) when fewer than two keys
are given; `canonical = args[0]`. -/
def getdefaults {V : Type} (settings : String → Option V) (keys : List String)
    (dflt : V) : Option (V × Option (String × String)) :=
  match keys with
  | canonical :: k2 :: rest =>
      some (getdefaultsLoop settings canonical dflt (canonical :: k2 :: rest))
  | _ => none

/-- Microseconds per day, the modulus of the `timedelta` normalization. -/
def usPerDay : ℤ := 86400 * 1000000

/-- The normalized `datetime.timedelta` components `(days, seconds,
microseconds)` with `0 ≤ microseconds < 10^6` and `0 ≤ seconds < 86400`. -/
structure Timedelta where
  days : ℤ
  seconds : ℤ
  microseconds : ℤ

/-- `dt - EPOCH` for a datetime given as its exact count `dt` of microseconds
since `EPOCH = 1970-01-01T00:00:00 UTC` (Python datetimes have microsecond
resolution), normalized the way `datetime.timedelta` normalizes (floor
division, remainders in `[0, modulus)`). -/
def dtSubEpoch (dt : ℤ) : Timedelta :=
  let r := Int.fmod dt usPerDay
  ⟨Int.fdiv dt usPerDay, Int.fdiv r 1000000, Int.fmod r 1000000⟩

/-- `dt2ts` from `util.py`:
`(td.microseconds + (td.seconds + td.days * 24 * 3600) * 10**6) / 10**6`,
with `td = dt - EPOCH` and true division (`from __future__ import division`).
Numbers are embedded as exact rationals. -/
def dt2ts (dt : ℤ) : ℚ :=
  let td := dtSubEpoch dt
  ((td.microseconds + (td.seconds + td.days * 24 * 3600) * 10 ^ 6 : ℤ) : ℚ) / 10 ^ 6

/-- Modelled from the spec: `ts2dt` delegates to the external
`datetime.utcfromtimestamp`, which interprets the timestamp as seconds since
the epoch in UTC and produces the datetime at the nearest microsecond.  The
datetime is represented by its microsecond count since `EPOCH`, so the
conversion is rounding `ts * 10^6` to the nearest integer. -/
def ts2dt (ts : ℚ) : ℤ :=
  round (ts * 1000000)

/-- A single invocation of the function wrapped by `retry` either returns a
value, raises one of the designated exceptions of the decorator, or raises an
exception that the `except` clause does not catch. -/
inductive Outcome (A E : Type) where
  | ok (v : A)
  | raised (e : E)
  | uncaught (e : E)
deriving DecidableEq

/-- What a call of the `retrying_wrapper` produced: a returned value, a
propagated exception, or Python's implicit `None` when the `for` loop runs
zero iterations (`tries = 0`). -/
inductive RetryResult (A E : Type) where
  | value (v : A)
  | exn (e : E)
  | retNone
deriving DecidableEq

/-- The `for n in xrange(tries)` loop of `retrying_wrapper`, at loop counter
`n` with `fuel` iterations left to run (`fuel = tries - n`).  The target
function is embedded as the sequence `fn` of the outcomes of its successive
invocations; the result is paired with the number of invocations made.
`fuel = 1` means `n == tries - 1`, where a caught exception is re-raised. -/
def retryGo {A E : Type} (fn : Nat → Outcome A E) (n : Nat) :
    Nat → RetryResult A E × Nat
  | 0 => (RetryResult.retNone, 0)
  | fuel + 1 =>
    match fn n with
    | Outcome.ok v => (RetryResult.value v, 1)
    | Outcome.raised e =>
        if fuel = 0 then (RetryResult.exn e, 1)
        else
          let r := retryGo fn (n + 1) fuel
          (r.1, r.2 + 1)
    | Outcome.uncaught e => (RetryResult.exn e, 1)

/-- A call of the function produced by `retry(tries, exceptions)(fn)`. -/
def retry {A E : Type} (tries : Nat) (fn : Nat → Outcome A E) :
    RetryResult A E × Nat :=
  retryGo fn 0 tries

/-- The result of `urlparse` on a candidate URL: scheme, network location and
path (the components `score_url` reads). -/
structure Url where
  scheme : Str
  netloc : Str
  path : Str
deriving DecidableEq

/-- `posixpath.basename`: the part of the path after the last slash. -/
def posixBasename (p : Str) : Str :=
  (p.reverse.takeWhile (fun c => !(c = '/' : Bool))).reverse

/-- The state of a `BetterScrapingLocator`: the `scheme` set to `"legacy"` by
`__init__` and the `prefer_wheel` attribute (class default `True`). -/
structure BetterScrapingLocator where
  scheme : Str
  prefer_wheel : Bool
deriving DecidableEq

/-- `BetterScrapingLocator()`: `__init__` forces `scheme='legacy'`;
`prefer_wheel` starts at its class default `True`. -/
def BetterScrapingLocator.init : BetterScrapingLocator :=
  ⟨"legacy".toList, true⟩

/-- `BetterScrapingLocator.locate(requirement, prereleases, wheel)`: it first
assigns `self.prefer_wheel = wheel` and then delegates to the external
`SimpleScrapingLocator.locate` (a parameter here); the updated locator state
is returned alongside the delegated result. -/
def BetterScrapingLocator.locate {R : Type}
    (superLocate : BetterScrapingLocator → Str → Bool → R)
    (self : BetterScrapingLocator) (requirement : Str) (prereleases : Bool)
    (wheel : Bool) : BetterScrapingLocator × R :=
  let s := { self with prefer_wheel := wheel }
  (s, superLocate s requirement prereleases)

/-- Python's substring test `needle in hay` (used for
`'pypi.python.org' in t.netloc`). -/
def strIn (needle : Str) : Str → Bool
  | [] => needle.isEmpty
  | c :: rest => needle.isPrefixOf (c :: rest) || strIn needle rest

/-- `BetterScrapingLocator.score_url(url)`: the composite score
`(t.scheme == 'https', not (self.prefer_wheel ^ filename.endswith('.whl')),
'pypi.python.org' in t.netloc, filename)` with
`filename = posixpath.basename(t.path)`. -/
def score_url (self : BetterScrapingLocator) (url : Url) :
    Bool × Bool × Bool × Str :=
  let filename := posixBasename url.path
  ( url.scheme == "https".toList,
    ! (Bool.xor self.prefer_wheel ((".whl".toList).isSuffixOf filename)),
    strIn ("pypi.python.org".toList) url.netloc,
    filename )

/-- Python comparison `a < b` on booleans: `False < True`. -/
def pyBoolLt (a b : Bool) : Bool :=
  !a && b

/-- Python comparison `s < t` on strings: lexicographic by code point. -/
def strLt : Str → Str → Bool
  | _, [] => false
  | [], _ :: _ => true
  | a :: s, b :: t =>
    if a.toNat < b.toNat then true
    else if b.toNat < a.toNat then false
    else strLt s t

/-- Python comparison `s < t` on the 4-tuples returned by `score_url`:
compare component-wise, the first differing component decides. -/
def scoreLt (s t : Bool × Bool × Bool × Str) : Bool :=
  if s.1 ≠ t.1 then pyBoolLt s.1 t.1
  else if s.2.1 ≠ t.2.1 then pyBoolLt s.2.1 t.2.1
  else if s.2.2.1 ≠ t.2.2.1 then pyBoolLt s.2.2.1 t.2.2.1
  else strLt s.2.2.2 t.2.2.2

/-- The ranking described by the specification: candidate scores are ordered
by (a) HTTPS over HTTP, then (b) matching the wheel preference, then (c) the
canonical host, with (d) the filename as final lexicographic tiebreaker. -/
def rankedBelow (s t : Bool × Bool × Bool × Str) : Prop :=
  (s.1 = false ∧ t.1 = true) ∨
  (s.1 = t.1 ∧ ((s.2.1 = false ∧ t.2.1 = true) ∨
    (s.2.1 = t.2.1 ∧ ((s.2.2.1 = false ∧ t.2.2.1 = true) ∨
      (s.2.2.1 = t.2.2.1 ∧ strLt s.2.2.2 t.2.2.2 = true)))))

/-- A concrete instance of the external splitting heuristic, agreeing with
`distlib.util.split_filename` on the probe input: on `"foo-1.0"` with hint
`"bar"` the hint branch of the heuristic does not match (`"bar"` does not
start the string), so the generic fallback splits it into `("foo", "1.0")`. -/
def splitFooBar : SplitFn := fun trimmed _hint =>
  if trimmed = "foo-1.0".toList then some ("foo".toList, "1.0".toList) else none

deriving instance DecidableEq for Except

example : parse_filename splitFooBar ("foo-1.0.tar.gz".toList) none =
    Except.ok ("foo".toList, "1.0".toList) := by decide

theorem char_toNat_ofNat_valid {n : Nat} (h : n.isValidChar) :
    (Char.ofNat n).toNat = n := by
  rw [Char.ofNat, dif_pos h]
  rfl

theorem char_toNat_toLower (c : Char) :
    (Char.toLower c).toNat =
      if 65 ≤ c.toNat ∧ c.toNat ≤ 90 then c.toNat + 32 else c.toNat := by
  unfold Char.toLower
  split
  · next h =>
      rw [if_pos h, char_toNat_ofNat_valid]
      exact Or.inl (by omega)
  · next h => rw [if_neg h]

theorem char_toLower_eq_self (c : Char) (h : ¬(65 ≤ c.toNat ∧ c.toNat ≤ 90)) :
    Char.toLower c = c := by
  unfold Char.toLower
  exact if_neg h

theorem char_toLower_toLower (c : Char) :
    (Char.toLower c).toLower = Char.toLower c := by
  by_cases h : 65 ≤ c.toNat ∧ c.toNat ≤ 90
  · apply char_toLower_eq_self
    rw [char_toNat_toLower, if_pos h]
    omega
  · rw [char_toLower_eq_self c h]
    exact char_toLower_eq_self c h

theorem isSep_toLower (c : Char) : isSep (Char.toLower c) = isSep c := by
  by_cases h : 65 ≤ c.toNat ∧ c.toNat ≤ 90
  · simp only [isSep, char_toNat_toLower, if_pos h]
    have h1 : ¬(c.toNat + 32 = 45) ∧ ¬(c.toNat + 32 = 95) ∧ ¬(c.toNat + 32 = 46) := by omega
    have h2 : ¬(c.toNat = 45) ∧ ¬(c.toNat = 95) ∧ ¬(c.toNat = 46) := by omega
    simp [h1.1, h1.2.1, h1.2.2, h2.1, h2.2.1, h2.2.2]
  · rw [char_toLower_eq_self c h]

theorem squashAux_squashAux (l : List Char) :
    ∀ b, squashAux b (squashAux b l) = squashAux b l := by
  induction l with
  | nil => intro b; rfl
  | cons c rest ih =>
      intro b
      cases hc : isSep c with
      | true =>
          cases b with
          | true => simp only [squashAux, hc, if_pos]; exact ih true
          | false =>
              have hsep : isSep '-' = true := by decide
              simp only [squashAux, hc, if_pos, if_neg, hsep, Bool.false_eq_true,
                if_false, if_true]
              rw [ih true]
      | false =>
          simp only [squashAux, hc, Bool.false_eq_true, if_false]
          rw [ih false]

theorem squashAux_map_toLower (l : List Char) :
    ∀ b, squashAux b (l.map Char.toLower) = (squashAux b l).map Char.toLower := by
  induction l with
  | nil => intro b; rfl
  | cons c rest ih =>
      intro b
      cases hc : isSep c with
      | true =>
          have hc2 : isSep (Char.toLower c) = true := by rw [isSep_toLower, hc]
          cases b with
          | true =>
              simp only [List.map_cons, squashAux, hc, hc2, if_true]
              exact ih true
          | false =>
              have hdash : Char.toLower '-' = '-' := by decide
              simp only [List.map_cons, squashAux, hc, hc2, if_true,
                Bool.false_eq_true, if_false]
              rw [ih true, hdash]
      | false =>
          have hc2 : isSep (Char.toLower c) = false := by rw [isSep_toLower, hc]
          simp only [List.map_cons, squashAux, hc, hc2, Bool.false_eq_true, if_false]
          rw [ih false]

theorem map_toLower_toLower (l : List Char) :
    (l.map Char.toLower).map Char.toLower = l.map Char.toLower := by
  induction l with
  | nil => rfl
  | cons c rest ih => simp only [List.map_cons, char_toLower_toLower, ih]

/-- C5: `normalize_name` is idempotent: normalizing an already-normalized
name returns it unchanged (`normalize_name (normalize_name s) =
normalize_name s` for every string `s`). -/
theorem normalize_name_idempotent (s : Str) :
    normalize_name (normalize_name s) = normalize_name s := by
  unfold normalize_name squashSeps
  rw [squashAux_map_toLower, squashAux_squashAux, map_toLower_toLower]

theorem findParsed_eq_find (split : SplitFn) (filename : Str) (hint : Option Str) :
    ∀ exts : List Str, findParsed split filename hint exts =
      match exts.find? (fun e => e.isSuffixOf filename) with
      | none => none
      | some e => split (trimExt filename e) hint := by
  intro exts
  induction exts with
  | nil => rfl
  | cons e rest ih =>
      cases he : e.isSuffixOf filename with
      | true =>
          rw [List.find?_cons]
          simp only [findParsed, he, if_true]
      | false =>
          rw [List.find?_cons]
          simp only [findParsed, he, Bool.false_eq_true, if_false]
          exact ih

theorem ext_suffix_unique {e1 e2 : Str} (h1 : e1 ∈ ALL_EXTENSIONS)
    (h2 : e2 ∈ ALL_EXTENSIONS) {f : Str} (hs1 : e1.isSuffixOf f = true)
    (hs2 : e2.isSuffixOf f = true) : e1 = e2 := by
  rw [List.isSuffixOf_iff_suffix] at hs1 hs2
  have hpair : ∀ a ∈ ALL_EXTENSIONS, ∀ b ∈ ALL_EXTENSIONS,
      (a.isSuffixOf b || b.isSuffixOf a) = true → a = b := by decide
  apply hpair e1 h1 e2 h2
  rcases List.suffix_or_suffix_of_suffix hs1 hs2 with h | h
  · simp [List.isSuffixOf_iff_suffix, h]
  · simp [List.isSuffixOf_iff_suffix, h]

theorem find_conj_of_unique {α : Type} (p q : α → Bool)
    (hsub : ∀ x, q x = true → p x = true) :
    ∀ l : List α, (∀ x ∈ l, ∀ y ∈ l, p x = true → p y = true → x = y) →
      l.find? q = match l.find? p with
        | none => none
        | some e => if q e = true then some e else none := by
  intro l
  induction l with
  | nil => intro _; rfl
  | cons a l ih =>
      intro huniq
      cases hqa : q a with
      | true =>
          have hpa := hsub a hqa
          rw [List.find?_cons_of_pos _ hqa, List.find?_cons_of_pos _ hpa]
          simp [hqa]
      | false =>
          rw [List.find?_cons_of_neg _ (by simp [hqa])]
          cases hpa : p a with
          | false =>
              rw [List.find?_cons_of_neg _ (by simp [hpa])]
              exact ih (fun x hx y hy => huniq x (List.mem_cons_of_mem a hx)
                y (List.mem_cons_of_mem a hy))
          | true =>
              rw [List.find?_cons_of_pos _ hpa]
              simp only [hqa, Bool.false_eq_true, if_false]
              cases hfq : l.find? q with
              | none => rfl
              | some e =>
                  exfalso
                  have hqe := List.find?_some hfq
                  have hme := List.mem_of_find?_eq_some hfq
                  have hae : a = e := huniq a (List.mem_cons_self a l)
                    e (List.mem_cons_of_mem a hme) hpa (hsub e hqe)
                  rw [← hae, hqa] at hqe
                  exact Bool.false_ne_true hqe

/-- C2: `parse_filename` succeeds exactly with the first extension of the
declared order that is both a suffix of the filename and for which the split
of the trimmed remainder succeeds; when no extension satisfies both, it
fails.  (With the declared extension tuple no two distinct extensions can be
suffixes of the same filename, so a filename whose first suffix-matching
extension has a failing split admits no later successful extension, and the
`break` of the source loop agrees with this first-success description.) -/
theorem parse_filename_first_success (split : SplitFn) (hint : Option Str)
    (filename : Str) :
    match ALL_EXTENSIONS.find?
        (fun e => e.isSuffixOf filename && (split (trimExt filename e) hint).isSome) with
    | none => parse_filename split filename hint = Except.error ⟨filename⟩
    | some e => ∃ pn v, split (trimExt filename e) hint = some (pn, v) ∧
        parse_filename split filename hint =
          Except.ok (normalize_name (hint.getD pn), v) := by
  have hfind := find_conj_of_unique (fun e => e.isSuffixOf filename)
    (fun e => e.isSuffixOf filename && (split (trimExt filename e) hint).isSome)
    (fun x hx => (Bool.and_eq_true _ _ |>.mp hx).1) ALL_EXTENSIONS
    (fun x hx y hy hpx hpy => ext_suffix_unique hx hy hpx hpy)
  have hloop := findParsed_eq_find split filename hint ALL_EXTENSIONS
  cases hfp : ALL_EXTENSIONS.find? (fun e => e.isSuffixOf filename) with
  | none =>
      rw [hfp] at hfind hloop
      have hloop2 : findParsed split filename hint ALL_EXTENSIONS = none := hloop
      have hfind2 : ALL_EXTENSIONS.find? (fun e => e.isSuffixOf filename &&
          (split (trimExt filename e) hint).isSome) = none := hfind
      rw [hfind2]
      have hgoal : parse_filename split filename hint = Except.error ⟨filename⟩ := by
        unfold parse_filename
        rw [hloop2]
      exact hgoal
  | some e =>
      rw [hfp] at hfind hloop
      have hloop2 : findParsed split filename hint ALL_EXTENSIONS =
          split (trimExt filename e) hint := hloop
      have hfind2 : ALL_EXTENSIONS.find? (fun e => e.isSuffixOf filename &&
          (split (trimExt filename e) hint).isSome) =
          if (e.isSuffixOf filename &&
            (split (trimExt filename e) hint).isSome) = true then some e
          else none := hfind
      cases hsplit : split (trimExt filename e) hint with
      | none =>
          have hq : (e.isSuffixOf filename &&
              (split (trimExt filename e) hint).isSome) = false := by
            rw [hsplit]
            simp
          have hscrut : ALL_EXTENSIONS.find? (fun e => e.isSuffixOf filename &&
              (split (trimExt filename e) hint).isSome) = none := by
            rw [hfind2, hq]
            simp
          rw [hscrut]
          have hgoal : parse_filename split filename hint =
              Except.error ⟨filename⟩ := by
            unfold parse_filename
            rw [hloop2, hsplit]
          exact hgoal
      | some pv =>
          have hpe0 := List.find?_some hfp
          have hpe : e.isSuffixOf filename = true := hpe0
          have hq : (e.isSuffixOf filename &&
              (split (trimExt filename e) hint).isSome) = true := by
            rw [hsplit, hpe]
            rfl
          have hscrut : ALL_EXTENSIONS.find? (fun e => e.isSuffixOf filename &&
              (split (trimExt filename e) hint).isSome) = some e := by
            rw [hfind2, hq]
            simp
          rw [hscrut]
          have hgoal : ∃ pn v, split (trimExt filename e) hint = some (pn, v) ∧
              parse_filename split filename hint =
                Except.ok (normalize_name (hint.getD pn), v) := by
            refine ⟨pv.1, pv.2, ?_, ?_⟩
            · rw [hsplit]
            · unfold parse_filename
              rw [hloop2, hsplit]
          exact hgoal

/-- C9: `parse_filename` raises the invalid-filename `ValueError` exactly
when no known extension is a suffix of the filename or the split fails for
the (first) matched extension; the raised error carries the original
filename, and a successful parse raises nothing. -/
theorem parse_filename_error_characterization (split : SplitFn)
    (hint : Option Str) (filename : Str) :
    (parse_filename split filename hint = Except.error ⟨filename⟩ ↔
      ((∀ e ∈ ALL_EXTENSIONS, e.isSuffixOf filename = false) ∨
       (∃ e, ALL_EXTENSIONS.find? (fun x => x.isSuffixOf filename) = some e ∧
         split (trimExt filename e) hint = none))) ∧
    (∀ err, parse_filename split filename hint = Except.error err →
      err.filename = filename) := by
  have hloop := findParsed_eq_find split filename hint ALL_EXTENSIONS
  cases hfp : ALL_EXTENSIONS.find? (fun e => e.isSuffixOf filename) with
  | none =>
      rw [hfp] at hloop
      have hloop2 : findParsed split filename hint ALL_EXTENSIONS = none := hloop
      have hall : ∀ e ∈ ALL_EXTENSIONS, e.isSuffixOf filename = false := by
        intro e he
        have hne := List.find?_eq_none.mp hfp e he
        exact Bool.eq_false_iff.mpr hne
      constructor
      · constructor
        · intro _
          exact Or.inl hall
        · intro _
          unfold parse_filename
          rw [hloop2]
      · intro err herr
        unfold parse_filename at herr
        rw [hloop2] at herr
        cases herr
        rfl
  | some e =>
      rw [hfp] at hloop
      have hloop2 : findParsed split filename hint ALL_EXTENSIONS =
          split (trimExt filename e) hint := hloop
      have hpe0 := List.find?_some hfp
      have hpe : e.isSuffixOf filename = true := hpe0
      have hme : e ∈ ALL_EXTENSIONS := List.mem_of_find?_eq_some hfp
      cases hsplit : split (trimExt filename e) hint with
      | none =>
          constructor
          · constructor
            · intro _
              exact Or.inr ⟨e, rfl, hsplit⟩
            · intro _
              unfold parse_filename
              rw [hloop2, hsplit]
          · intro err herr
            unfold parse_filename at herr
            rw [hloop2, hsplit] at herr
            cases herr
            rfl
      | some pv =>
          have hok : parse_filename split filename hint =
              Except.ok (normalize_name (hint.getD pv.1), pv.2) := by
            unfold parse_filename
            rw [hloop2, hsplit]
          constructor
          · constructor
            · intro habs
              rw [hok] at habs
              exact absurd habs (by simp)
            · rintro (hall | ⟨e2, hfp2, hsplit2⟩)
              · rw [hall e hme] at hpe
                exact absurd hpe (by simp)
              · cases hfp2
                rw [hsplit] at hsplit2
                exact absurd hsplit2 (by simp)
          · intro err herr
            rw [hok] at herr
            exact absurd herr (by simp)

/-- C1, counterexample: with the hint name `"bar"` supplied, parsing
`"foo-1.0.tar.gz"` succeeds, the split of the trimmed filename produced the
name component `"foo"`, yet the returned name is `"bar"` (the normalized
hint), not `normalize_name "foo"`. -/
theorem parse_filename_hint_cex :
    parse_filename splitFooBar ("foo-1.0.tar.gz".toList) (some ("bar".toList)) =
      Except.ok ("bar".toList, "1.0".toList) ∧
    splitFooBar (trimExt ("foo-1.0.tar.gz".toList) (".tar.gz".toList))
        (some ("bar".toList)) = some ("foo".toList, "1.0".toList) ∧
    ALL_EXTENSIONS.find? (fun e => e.isSuffixOf ("foo-1.0.tar.gz".toList)) =
      some (".tar.gz".toList) ∧
    ("bar".toList : Str) ≠ normalize_name ("foo".toList) := by decide

/-- C1, amended: when a hint name is supplied and `parse_filename` succeeds,
the name component of the returned pair is the normalization of the hint
itself, regardless of the name component the split produced. -/
theorem parse_filename_hint_returns_hint (split : SplitFn) (filename hint : Str)
    (p : Str × Str)
    (h : parse_filename split filename (some hint) = Except.ok p) :
    p.1 = normalize_name hint := by
  unfold parse_filename at h
  cases hfp : findParsed split filename (some hint) ALL_EXTENSIONS with
  | none =>
      rw [hfp] at h
      exact absurd h (by simp)
  | some pv =>
      rw [hfp] at h
      cases h
      rfl

/-- C1, witness for the amended claim at a concrete input. -/
theorem parse_filename_hint_returns_hint_witness :
    parse_filename splitFooBar ("foo-1.0.tar.gz".toList) (some ("bar".toList)) =
      Except.ok ("bar".toList, "1.0".toList) ∧
    ("bar".toList, "1.0".toList).1 = normalize_name ("bar".toList) :=
  ⟨by decide, parse_filename_hint_returns_hint splitFooBar
    ("foo-1.0.tar.gz".toList) ("bar".toList) ("bar".toList, "1.0".toList)
    (by decide)⟩

theorem retryGo_success {A E : Type} (fn : Nat → Outcome A E) (es : Nat → E)
    (v : A) : ∀ d n fuel, d < fuel →
      (∀ i, n ≤ i → i < n + d → fn i = Outcome.raised (es i)) →
      fn (n + d) = Outcome.ok v →
      retryGo fn n fuel = (RetryResult.value v, d + 1) := by
  intro d
  induction d with
  | zero =>
      intro n fuel hlt _ hok
      cases fuel with
      | zero => omega
      | succ f =>
          rw [Nat.add_zero] at hok
          simp only [retryGo, hok]
  | succ d ih =>
      intro n fuel hlt hfail hok
      cases fuel with
      | zero => omega
      | succ f =>
          have hraise : fn n = Outcome.raised (es n) :=
            hfail n (Nat.le_refl n) (by omega)
          have hf : ¬(f = 0) := by omega
          have hok2 : fn (n + 1 + d) = Outcome.ok v := by
            have harith : n + 1 + d = n + (d + 1) := by omega
            rw [harith]
            exact hok
          have hrec := ih (n + 1) f (by omega)
            (fun i hi1 hi2 => hfail i (by omega) (by omega)) hok2
          simp only [retryGo, hraise, if_neg hf, hrec]

theorem retryGo_allfail {A E : Type} (fn : Nat → Outcome A E) (es : Nat → E) :
    ∀ fuel n, 1 ≤ fuel →
      (∀ i, n ≤ i → i < n + fuel → fn i = Outcome.raised (es i)) →
      retryGo fn n fuel = (RetryResult.exn (es (n + fuel - 1)), fuel) := by
  intro fuel
  induction fuel with
  | zero => intro n h; omega
  | succ f ih =>
      intro n _ hfail
      have hraise : fn n = Outcome.raised (es n) :=
        hfail n (Nat.le_refl n) (by omega)
      cases Nat.eq_zero_or_pos f with
      | inl hf0 =>
          subst hf0
          simp [retryGo, hraise]
      | inr hfpos =>
          have hf : ¬(f = 0) := by omega
          have hrec := ih (n + 1) hfpos
            (fun i hi1 hi2 => hfail i (by omega) (by omega))
          have harith : n + 1 + f - 1 = n + (f + 1) - 1 := by omega
          rw [harith] at hrec
          simp only [retryGo, hraise, if_neg hf, hrec]

/-- C3: for `tries ≥ 1`, if the wrapped function raises designated exceptions
on its first `k - 1` invocations (`1 ≤ k ≤ tries`): when the `k`-th invocation
returns `v`, the wrapped call returns `v` after exactly `k` invocations; when
instead `k = tries` and the `tries`-th invocation also raises, the wrapped
call makes exactly `tries` invocations and propagates the exception object of
the final attempt unchanged. -/
theorem retry_semantics {A E : Type} (fn : Nat → Outcome A E) (es : Nat → E)
    (tries k : Nat) (h1 : 1 ≤ k) (h2 : k ≤ tries)
    (hfail : ∀ i, i < k - 1 → fn i = Outcome.raised (es i)) :
    (∀ v, fn (k - 1) = Outcome.ok v →
      retry tries fn = (RetryResult.value v, k)) ∧
    (k = tries → fn (tries - 1) = Outcome.raised (es (tries - 1)) →
      retry tries fn = (RetryResult.exn (es (tries - 1)), tries)) := by
  constructor
  · intro v hok
    have hok2 : fn (0 + (k - 1)) = Outcome.ok v := by
      rw [Nat.zero_add]
      exact hok
    have h := retryGo_success fn es v (k - 1) 0 tries (by omega)
      (fun i hi1 hi2 => hfail i (by omega)) hok2
    unfold retry
    rw [h]
    have : k - 1 + 1 = k := by omega
    rw [this]
  · intro heq hlast
    subst heq
    have hall : ∀ i, 0 ≤ i → i < 0 + k → fn i = Outcome.raised (es i) := by
      intro i _ hi
      by_cases hik : i < k - 1
      · exact hfail i hik
      · have : i = k - 1 := by omega
        rw [this]
        exact hlast
    have h := retryGo_allfail fn es k 0 (by omega) hall
    unfold retry
    rw [h, Nat.zero_add]

/-- A concrete target for the retry decorator: its first two invocations
raise (exception `n` on invocation `n`), every later one returns `42`. -/
def failTwice : Nat → Outcome Nat Nat :=
  fun n => if n < 2 then Outcome.raised n else Outcome.ok 42

/-- C3, witness: wrapped with `tries = 3` the twice-failing function returns
`42` and was invoked exactly 3 times; wrapped with `tries = 2` it makes 2
invocations and propagates the second failure (exception `1`). -/
theorem retry_semantics_witness :
    (1 ≤ 3 ∧ 3 ≤ 3 ∧ 1 ≤ 2 ∧ 2 ≤ 2) ∧
    retry 3 failTwice = (RetryResult.value 42, 3) ∧
    retry 2 failTwice = (RetryResult.exn 1, 2) :=
  ⟨⟨by decide, by decide, by decide, by decide⟩,
   (retry_semantics failTwice (fun n => n) 3 3 (by decide) (by decide)
     (by intro i hi; simp only [failTwice, if_pos (show i < 2 by omega)])).1
     42 (by decide),
   (retry_semantics failTwice (fun n => n) 2 2 (by decide) (by decide)
     (by intro i hi; simp only [failTwice, if_pos (show i < 2 by omega)])).2
     rfl (by decide)⟩

/-- C10: with `tries = 0` the `for` loop of the wrapper runs zero iterations,
so the wrapped call never invokes the target function and returns Python's
implicit `None`; the decorator does not enforce a `tries ≥ 1` precondition. -/
theorem retry_zero_tries {A E : Type} (fn : Nat → Outcome A E) :
    retry 0 fn = (RetryResult.retNone, 0) := rfl

theorem dt2ts_eq (dt : ℤ) : dt2ts dt = (dt : ℚ) / 10 ^ 6 := by
  have h1 : (86400 * 1000000 : ℤ) * Int.fdiv dt usPerDay +
      Int.fmod dt usPerDay = dt := Int.fdiv_add_fmod dt usPerDay
  have h2 := Int.fdiv_add_fmod (Int.fmod dt usPerDay) 1000000
  have hnum : Int.fmod (Int.fmod dt usPerDay) 1000000 +
      (Int.fdiv (Int.fmod dt usPerDay) 1000000 +
        Int.fdiv dt usPerDay * 24 * 3600) * 10 ^ 6 = dt := by
    have hpow : (10:ℤ) ^ 6 = 1000000 := by norm_num
    rw [hpow]
    omega
  simp only [dt2ts, dtSubEpoch]
  rw [hnum]

/-- C4: the timestamp round-trip: converting a timestamp to a datetime (which
rounds to the microsecond) and back reproduces the original timestamp to
within `10^-6` seconds.  Timestamps are embedded as exact rationals and
datetimes by their microsecond count since the epoch. -/
theorem dt2ts_ts2dt_roundtrip (t : ℚ) :
    |dt2ts (ts2dt t) - t| ≤ 1 / 1000000 := by
  rw [dt2ts_eq]
  unfold ts2dt
  have h := abs_sub_round (t * 1000000)
  have h6 : ((10:ℚ) ^ 6) = 1000000 := by norm_num
  rw [h6]
  have hexp : ((round (t * 1000000) : ℤ) : ℚ) / 1000000 - t
      = -((t * 1000000 - (round (t * 1000000) : ℤ)) / 1000000) := by
    ring
  rw [hexp, abs_neg, abs_div]
  have habs : |(1000000:ℚ)| = 1000000 := by norm_num
  rw [habs]
  linarith

/-- C6, counterexample: `BetterScrapingLocator.locate` mutates a field of the
pre-existing locator object: starting from a locator with
`prefer_wheel = False`, calling `locate` with `wheel=True` leaves the locator
in a different state. -/
theorem locate_mutates_state :
    (BetterScrapingLocator.locate (fun _ _ _ => ()) ⟨"legacy".toList, false⟩
      ("foo".toList) false true).1 ≠
      (⟨"legacy".toList, false⟩ : BetterScrapingLocator) := by decide

/-- C6, amended: the module's operations work only on their arguments except
`BetterScrapingLocator.locate`, which updates the locator's `prefer_wheel`
field to its `wheel` argument (shared mutable state on the locator) before
delegating to the superclass with the updated state; no other field
changes. -/
theorem locate_updates_only_prefer_wheel {R : Type}
    (superLocate : BetterScrapingLocator → Str → Bool → R)
    (self : BetterScrapingLocator) (requirement : Str)
    (prereleases wheel : Bool) :
    (BetterScrapingLocator.locate superLocate self requirement prereleases
        wheel).1 = { self with prefer_wheel := wheel } ∧
    (BetterScrapingLocator.locate superLocate self requirement prereleases
        wheel).1.scheme = self.scheme ∧
    (BetterScrapingLocator.locate superLocate self requirement prereleases
        wheel).2 =
      superLocate { self with prefer_wheel := wheel } requirement prereleases :=
  ⟨rfl, rfl, rfl⟩

theorem getdefaultsLoop_eq_find {V : Type} (settings : String → Option V)
    (canonical : String) (dflt : V) :
    ∀ keys : List String, getdefaultsLoop settings canonical dflt keys =
      match keys.find? (fun k => (settings k).isSome) with
      | none => (dflt, none)
      | some k => ((settings k).getD dflt,
          if k = canonical then none else some (k, canonical)) := by
  intro keys
  induction keys with
  | nil => rfl
  | cons k rest ih =>
      rw [List.find?_cons]
      cases hk : settings k with
      | none =>
          simp only [getdefaultsLoop, hk, Option.isSome_none]
          exact ih
      | some v =>
          simp only [getdefaultsLoop, hk, Option.isSome_some, Option.getD_some]

/-- C7: `getdefaults` returns the value of the first present key of the
ordered key list (at least two keys), returns the default when no key is
present, and emits the deprecation warning exactly when the first present key
differs from the first (canonical) key. -/
theorem getdefaults_first_present {V : Type} (settings : String → Option V)
    (k1 k2 : String) (ks : List String) (dflt : V) :
    getdefaults settings (k1 :: k2 :: ks) dflt =
      some (match (k1 :: k2 :: ks).find? (fun k => (settings k).isSome) with
        | none => (dflt, none)
        | some k => ((settings k).getD dflt,
            if k = k1 then none else some (k, k1))) := by
  have h := getdefaultsLoop_eq_find settings k1 dflt (k1 :: k2 :: ks)
  show some (getdefaultsLoop settings k1 dflt (k1 :: k2 :: ks)) = _
  rw [h]

example :
    getdefaults (fun k => if k = "old_key" then some ("v") else none)
      ["new_key", "old_key"] "default" =
      some (("v"), some ("old_key", "new_key")) := by decide

example :
    getdefaults (fun _ : String => (none : Option String))
      ["new_key", "old_key"] "default" = some (("default"), none) := by decide

/-- C8: the Python comparison on the 4-tuples produced by `score_url` is
exactly the priority ranking of the specification — HTTPS first, then
agreement with the wheel preference, then the canonical host, with the
filename as final lexicographic tiebreaker — and consequently, with wheels
preferred, an HTTPS `.whl` URL on the canonical host scores strictly higher
than an HTTP non-wheel URL on a mirror host. -/
theorem score_url_ranking (loc : BetterScrapingLocator) (u1 u2 : Url)
    (hw : loc.prefer_wheel = true)
    (h1 : u1.scheme = "https".toList)
    (h2 : (".whl".toList).isSuffixOf (posixBasename u1.path) = true)
    (h3 : strIn ("pypi.python.org".toList) u1.netloc = true)
    (h4 : u2.scheme = "http".toList)
    (h5 : (".whl".toList).isSuffixOf (posixBasename u2.path) = false)
    (h6 : strIn ("pypi.python.org".toList) u2.netloc = false) :
    (∀ s t, scoreLt s t = true ↔ rankedBelow s t) ∧
    score_url loc u1 = (true, true, true, posixBasename u1.path) ∧
    score_url loc u2 = (false, false, false, posixBasename u2.path) ∧
    scoreLt (score_url loc u2) (score_url loc u1) = true := by
  have e1 : (("http".toList : Str) == "https".toList) = false := by decide
  have e2 : (("https".toList : Str) == "https".toList) = true := by decide
  have hs1 : score_url loc u1 = (true, true, true, posixBasename u1.path) := by
    simp [score_url, h1, h2, h3, hw, e2]
    exact ⟨List.isSuffixOf_iff_suffix.mp h2, h3⟩
  have hs2 : score_url loc u2 = (false, false, false, posixBasename u2.path) := by
    simp [score_url, h4, h5, h6, hw, e1]
    exact ⟨h5, h6⟩
  refine ⟨?_, hs1, hs2, ?_⟩
  · intro s t
    obtain ⟨a, b, c, f⟩ := s
    obtain ⟨a2, b2, c2, f2⟩ := t
    cases a <;> cases a2 <;> cases b <;> cases b2 <;> cases c <;> cases c2 <;>
      simp [scoreLt, rankedBelow, pyBoolLt]
  · rw [hs1, hs2]
    simp [scoreLt, pyBoolLt]

/-- C8, witness: a concrete HTTPS wheel URL on the canonical host outranks a
concrete HTTP sdist URL on a mirror host for a freshly initialized locator
(wheels preferred). -/
theorem score_url_ranking_witness :
    BetterScrapingLocator.init.prefer_wheel = true ∧
    scoreLt
      (score_url BetterScrapingLocator.init
        ⟨"http".toList, "mirror.example.com".toList,
          "/packages/foo-1.0.tar.gz".toList⟩)
      (score_url BetterScrapingLocator.init
        ⟨"https".toList, "pypi.python.org".toList,
          "/packages/foo-1.0-py2-none-any.whl".toList⟩) = true :=
  ⟨rfl,
   (score_url_ranking BetterScrapingLocator.init
     ⟨"https".toList, "pypi.python.org".toList,
       "/packages/foo-1.0-py2-none-any.whl".toList⟩
     ⟨"http".toList, "mirror.example.com".toList,
       "/packages/foo-1.0.tar.gz".toList⟩
     rfl rfl (by decide) (by decide) rfl (by decide) (by decide)).2.2.2⟩
